import Mathlib

/-!
Verification of the spectre factor-graph / grouped-tensor runtime
(`src/spectre/parallel/algorithmic.py`, `src/spectre/factors/factor.py`).

Tensors are modelled as (nested) Lean lists.  A floating-point value that may
be NaN is modelled as `Option ℚ`; `none` is the missing marker (NaN).
Division by zero is modelled as missing: the only zero denominators reached in
the modelled code paths are of the form 0/0, which is NaN in IEEE arithmetic.
-/

namespace Spectre

/-- Floating point value with a missing marker: `none` models NaN. -/
abbrev FP := Option ℚ

/-- NaN-propagating addition (IEEE: x + NaN = NaN). -/
def fadd : FP → FP → FP
  | some a, some b => some (a + b)
  | _, _ => none

/-- NaN-propagating multiplication. -/
def fmul : FP → FP → FP
  | some a, some b => some (a * b)
  | _, _ => none

/-- NaN-propagating division; division by zero is modelled as missing
(all zero denominators reached here are 0/0, i.e. NaN). -/
def fdiv : FP → FP → FP
  | some a, some b => if b = 0 then none else some (a / b)
  | _, _ => none

namespace ParallelGroupBy

/-- Largest key in the key vector (0 for an empty vector). -/
def maxKey (keys : List ℕ) : ℕ := keys.foldr max 0

/-- The distinct key values in ascending order.  In the source this order
arises from `torch.sort` on `keys` plus the in-`[0,0.9)` per-row linspace
tiebreaker followed by the boundary scan on the sorted keys. -/
def sortedKeyList (keys : List ℕ) : List ℕ :=
  (List.range (maxKey keys + 1)).filter (fun k => k ∈ keys)

/-- For each distinct key (ascending), the original row indices carrying that
key, in original row order.  This is exactly `sorted_indices` cut at the group
boundaries: the sort key `keys + linspace(0, 0.9, n)` orders rows by key with
ties broken by original position. -/
def groupRows (keys : List ℕ) : List (List ℕ) :=
  (sortedKeyList keys).map (fun k =>
    (List.range keys.length).filter (fun i => keys.getD i 0 = k))

/-- Number of groups (`self._groups`). -/
def groups (keys : List ℕ) : ℕ := (groupRows keys).length

/-- Width of the padded layout: the size of the largest group
(`width = np.diff(boundary).max()`). -/
def width (keys : List ℕ) : ℕ :=
  ((groupRows keys).map List.length).foldr max 0

/-- Model of `self._sorted_indices`: the (groups × width) index table, each group's row
indices left-aligned, the remainder the `-1` sentinel (modelled as `none`;
`self._padding_mask` is exactly the `none` slots). -/
def takeIndices (keys : List ℕ) : List (List (Option ℕ)) :=
  (groupRows keys).map (fun r =>
    r.map some ++ List.replicate (width keys - r.length) none)

/-- The flattened index table, used for the inverse permutation. -/
def flatTake (keys : List ℕ) : List (Option ℕ) := (takeIndices keys).flatten

/-- Model of `self._inverse_indices`: for each original row `p`, the flat position of
`p` in the flattened padded index table.  The source computes this by filling
padding with the out-of-range sentinel `n + 1`, argsorting the flattened
table and keeping the first `n` entries; since each of `0, …, n-1` occurs
exactly once and every padding value sorts after them, entry `p` of that
argsort is the unique flat position holding `p`. -/
def inverseIndices (keys : List ℕ) : List ℕ :=
  (List.range keys.length).map (fun p =>
    @List.indexOf (Option ℕ) instBEqOfDecidableEq (some p) (flatTake keys))

/-- Reading one slot of the index table: a real index gathers from `data`, a
padded slot reads the missing marker. -/
def gatherElem (missing : α) (data : List α) : Option ℕ → α
  | some i => data.getD i missing
  | none => missing

/-- Model of `split`: gather `data` at the index table, then fill the padded slots with
the missing marker (`NaN` for floating data, `False` for booleans — here an
arbitrary `missing : α`).  The gather at the `-1` sentinel is irrelevant
because `masked_fill_` overwrites every padded slot. -/
def split (keys : List ℕ) (missing : α) (data : List α) : List (List α) :=
  (takeIndices keys).map (List.map (gatherElem missing data))

/-- Model of `revert`: checks that the input has the layout's (groups, width) shape
(raising `ValueError` otherwise, modelled as `none`), then gathers at the
inverse permutation. -/
def revert [Inhabited α] (keys : List ℕ) (sd : List (List α)) : Option (List α) :=
  if sd.length = groups keys ∧ ∀ r ∈ sd, r.length = width keys then
    some ((inverseIndices keys).map (fun fp => sd.flatten.getD fp default))
  else
    none

end ParallelGroupBy

/-- A tensor reduced to what `DummyParallelGroupBy` manipulates: a shape
vector plus flat contents.  `unsqueeze`/`squeeze` only edit the shape. -/
structure DTensor (α : Type) where
  shape : List ℕ
  data : List α
deriving DecidableEq

namespace DummyParallelGroupBy

/-- Model of `DummyParallelGroupBy.split`: `data.unsqueeze(self.dim)` with the default
`dim = -1`, i.e. append a dummy axis of size 1. -/
def split (t : DTensor α) : DTensor α := ⟨t.shape ++ [1], t.data⟩

/-- Model of `DummyParallelGroupBy.revert`: `split_data.squeeze()`, which removes
every axis of size 1 (not only the dummy one). -/
def revert (t : DTensor α) : DTensor α :=
  ⟨t.shape.filter (fun s => s ≠ 1), t.data⟩

end DummyParallelGroupBy

/-! ## NaN-aware reductions (`nansum`, `nanmean`) -/

/-- Sum of one row after `masked_fill_(mask, 0)` with `mask = isnan(data)`:
missing entries are replaced by 0 before summation (`unmasked_sum`).  The
result is always an actual number. -/
def nansumRow (row : List FP) : ℚ := (row.map (fun x => x.getD 0)).sum

/-- Model of `(~mask).sum()`: the number of non-missing entries of the row. -/
def nonNanCount (row : List FP) : ℕ := row.countP (fun x => x.isSome)

/-- One row of `unmasked_mean` with `mask = isnan(data)`: the masked sum
divided by the non-missing count; an all-missing row divides 0 by 0,
which is NaN. -/
def nanmeanRow (row : List FP) : FP :=
  fdiv (some (nansumRow row)) (some (nonNanCount row : ℚ))

/-- Model of `nansum(data, dim=1)` on a 2D tensor: row-wise masked sums. -/
def nansum (d : List (List FP)) : List ℚ := d.map nansumRow

/-- Model of `nanmean(data, dim=1)` on a 2D tensor: row-wise masked means. -/
def nanmean (d : List (List FP)) : List FP := d.map nanmeanRow

/-! ## Rolling -/

namespace Rolling

/-- Model of `Rolling.unfold` on one group row: left-pad with `win - 1` missing
columns (`nan_stack`), then take the sliding windows `new_x.unfold(1, win, 1)`;
window `t` holds `padded[t], …, padded[t + win - 1]`. -/
def unfoldRow (row : List FP) (win : ℕ) : List (List FP) :=
  let padded := List.replicate (win - 1) none ++ row
  (List.range row.length).map (fun t =>
    (List.range win).map (fun k => padded.getD (t + k) none))

/-- Model of `Rolling.unfold` on a (groups × time) tensor. -/
def unfold (x : List (List FP)) (win : ℕ) : List (List (List FP)) :=
  x.map (fun row => unfoldRow row win)

/-- Last non-missing value of a window.  Modelled from the spec: the kernel
`masked_last` (src/spectre/parallel/algorithmic.py) builds its argmax weights
from `DeviceConstant` (src/spectre/parallel/constants.py), which is not under
src/; per the spec, `last_nonnan` records "the adjustment series' last
non-missing value per window", NaN when the whole window is missing. -/
def lastNonnan (w : List FP) : FP :=
  w.foldl (fun acc x => if x.isSome then x else acc) none

/-- Model of `Rolling.adjust` over the whole time axis: elementwise
`values * adjustments / adjustment_last`, where `adjustment_last` is
broadcast over the window slots.  (`agg` applies its op to chunks
`[s, e)` of the time axis and concatenates along that axis; since every op
used here treats each time slot independently, the chunked result equals
the whole-axis application modelled here.) -/
def adjustedValues (x adj : List (List FP)) (win : ℕ) : List (List (List FP)) :=
  (List.zip (unfold x win) (unfold adj win)).map (fun gr =>
    (List.zip gr.1 gr.2).map (fun tw =>
      tw.1.zipWith (fun v a => fdiv (fmul v a) (lastNonnan tw.2)) tw.2))

/-- NaN-propagating sum of a window (`x.sum(dim=2)` on plain values). -/
def fpSum (w : List FP) : FP := w.foldr fadd (some 0)

/-- Model of `Rolling.mean` with an adjustment series attached:
`agg(lambda x: x.sum(dim=2) / self.win)` over the adjusted windows. -/
def meanAdjusted (x adj : List (List FP)) (win : ℕ) : List (List FP) :=
  (adjustedValues x adj win).map (List.map (fun w =>
    fdiv (fpSum w) (some (win : ℚ))))

end Rolling

/-! ## Factor graph -/

/-- The shape of a `CustomFactor` as far as history requirements go: a window
length, the upstream factor inputs (plain scalar operands in `inputs`
contribute nothing to `get_total_backwards_` and are omitted), and an
optional mask factor.  Leaves (`ColumnDataFactor`) have no inputs and no
mask: their `get_total_backwards_` returns `0 + win - 1` with `win = 1`. -/
inductive Factor where
  | node (win : ℤ) (inputs : List Factor) (mask : Option Factor)

/-- Python's `max(list or (0,))`: the maximum of a list, `0` for the empty
list (note: NOT the same as folding `max` from `0` — a singleton `[-5]`
gives `-5`). -/
def pyMaxList : List ℤ → ℤ
  | [] => 0
  | [a] => a
  | a :: rest => max a (pyMaxList rest)

mutual

/-- Model of `CustomFactor.get_total_backwards_` (the `_total_backwards` memo is a
pure cache): `max([up.get_total_backwards_() for up in inputs] or (0,))`
plus `win - 1`, then `max`-ed against the mask's own backwards — the mask's
requirement is *not* increased by `win - 1`. -/
def getTotalBackwards : Factor → ℤ
  | .node win inputs mask =>
    match mask with
    | some m => max (getTotalBackwards m) (gtbMaxInputs inputs + (win - 1))
    | none => gtbMaxInputs inputs + (win - 1)

/-- Model of `max(list or (0,))` over the inputs' own `get_total_backwards_`. -/
def gtbMaxInputs : List Factor → ℤ
  | [] => 0
  | [f] => getTotalBackwards f
  | f :: rest => max (getTotalBackwards f) (gtbMaxInputs rest)

end

/-- The history-requirement formula as the claim words it: the maximum, over
all upstream input nodes *and the mask node*, of their own backward
requirement, plus `win - 1`. -/
def claimedNodeBackwards (win : ℤ) (inputs : List Factor) (mask : Option Factor) : ℤ :=
  pyMaxList ((inputs ++ mask.toList).map getTotalBackwards) + (win - 1)

/-- Model of `CustomFactor.__init__`: Python truthiness makes a passed `win` of `0`
fall back to the class default, and `(self._min_win or 1)` reads a `None` or
`0` minimum as `1`; construction raises `ValueError` unless
`win >= (min_win or 1)`. -/
def customFactorInit (classWin : ℤ) (minWin : Option ℤ) (win : Option ℤ) :
    Except String ℤ :=
  let w := match win with
    | some v => if v ≠ 0 then v else classWin
    | none => classWin
  let m := match minWin with
    | some v => if v ≠ 0 then v else 1
    | none => 1
  if w ≥ m then .ok w else .error "factor win must >= [min_win and 1]"

/-- Model of `SumFactor`: class `win` default 1 (inherited), `_min_win = 2`. -/
def sumFactorInit (win : Option ℤ) : Except String ℤ :=
  customFactorInit 1 (some 2) win

/-! ## Reference-counted compute protocol (one node, CPU path)

The per-run transient state of a single `CustomFactor`: its reference count,
its cache, and an instrumentation counter for how many times the node's own
kernel `compute` ran.  The cached value and the kernel result are an opaque
`ℕ` tensor id; `compute` is deterministic in a run (its inputs are computed
once, before any caching decision). -/

structure NodeState where
  refCount : ℤ
  cache : Option ℕ
  kernelCalls : ℕ
deriving DecidableEq

/-- Fresh state of a node at the start of a run (class defaults
`_ref_count = 0`, `_cache = None`). -/
def initState : NodeState := ⟨0, none, 0⟩

/-- One `pre_compute_` call on the node itself (default `_keep_cache = False`;
the recursion into children happens only on the first call and does not touch
this node's own counters beyond the increment). -/
def preCompute (s : NodeState) : NodeState :=
  { s with refCount := s.refCount + 1 }

/-- One `compute_` call on the node (CPU path, `down_stream = None`):
decrement the count, raise `ValueError` if it went negative; return the
cache when present, dropping it at count zero; otherwise run the kernel,
cache the result only if more consumers remain. -/
def computeStep (kernel : ℕ) (s : NodeState) : Except String (NodeState × ℕ) :=
  if s.refCount - 1 < 0 then
    .error "Reference count error"
  else
    match s.cache with
    | some v =>
      .ok ({ s with
             refCount := s.refCount - 1,
             cache := (if s.refCount - 1 = 0 then none else some v) }, v)
    | none =>
      .ok (⟨s.refCount - 1, if s.refCount - 1 > 0 then some kernel else none,
            s.kernelCalls + 1⟩, kernel)

/-- Iterate `pre_compute_` `k` times. -/
def preComputeN (k : ℕ) (s : NodeState) : NodeState :=
  match k with
  | 0 => s
  | k + 1 => preComputeN k (preCompute s)

/-- Run `compute_` `k` times, collecting the returned tensors in order;
any raise aborts the run. -/
def computeN (kernel : ℕ) (k : ℕ) (s : NodeState) :
    Except String (NodeState × List ℕ) :=
  match k with
  | 0 => .ok (s, [])
  | k + 1 =>
    match computeStep kernel s with
    | .error e => .error e
    | .ok (s1, v) =>
      match computeN kernel k s1 with
      | .error e => .error e
      | .ok (s2, vs) => .ok (s2, v :: vs)

/-! ## Lemmas about the grouped layout -/

namespace ParallelGroupBy

theorem mem_le_foldr_max {l : List ℕ} {a : ℕ} (h : a ∈ l) : a ≤ l.foldr max 0 := by
  induction l with
  | nil => cases h
  | cons x xs ih =>
    rcases List.mem_cons.mp h with h | h
    · subst h; exact le_max_left _ _
    · exact le_trans (ih h) (le_max_right _ _)

theorem row_length_le_width {keys : List ℕ} {r : List ℕ}
    (hr : r ∈ groupRows keys) : r.length ≤ width keys :=
  mem_le_foldr_max (List.mem_map_of_mem List.length hr)

theorem takeIndices_row_length {keys : List ℕ} {r : List (Option ℕ)}
    (hr : r ∈ takeIndices keys) : r.length = width keys := by
  rcases List.mem_map.mp hr with ⟨r0, hr0, rfl⟩
  have := row_length_le_width hr0
  simp [List.length_append, List.length_replicate]
  omega

theorem length_takeIndices (keys : List ℕ) :
    (takeIndices keys).length = groups keys := by
  simp [takeIndices, groups]

theorem mem_flatten_groupRows {keys : List ℕ} {p : ℕ} (hp : p < keys.length) :
    p ∈ (groupRows keys).flatten := by
  have hk_mem : keys.getD p 0 ∈ keys := by
    rw [List.getD_eq_getElem _ _ hp]; exact List.getElem_mem hp
  have hk_le : keys.getD p 0 ≤ maxKey keys := mem_le_foldr_max hk_mem
  apply List.mem_flatten.mpr
  refine ⟨(List.range keys.length).filter (fun i => keys.getD i 0 = keys.getD p 0),
    List.mem_map_of_mem _ ?_, ?_⟩
  · exact List.mem_filter.mpr ⟨List.mem_range.mpr (by omega), by simpa using hk_mem⟩
  · exact List.mem_filter.mpr ⟨List.mem_range.mpr hp, by simp⟩

theorem mem_flatTake {keys : List ℕ} {p : ℕ} (hp : p < keys.length) :
    some p ∈ flatTake keys := by
  have h := mem_flatten_groupRows hp
  rcases List.mem_flatten.mp h with ⟨r, hr, hpr⟩
  apply List.mem_flatten.mpr
  exact ⟨r.map some ++ List.replicate (width keys - r.length) none,
    List.mem_map_of_mem _ hr,
    List.mem_append_left _ (List.mem_map_of_mem some hpr)⟩

theorem map_getD_range (l : List α) (d : α) :
    (List.range l.length).map (fun i => l.getD i d) = l := by
  apply List.ext_getElem (by simp)
  intro i h1 h2
  simp [List.getElem?_eq_getElem h2]

theorem flatten_split (keys : List ℕ) (missing : α) (data : List α) :
    (split keys missing data).flatten = (flatTake keys).map (gatherElem missing data) := by
  simp [split, flatTake, List.map_flatten]

theorem split_shape (keys : List ℕ) (missing : α) (data : List α) :
    (split keys missing data).length = groups keys ∧
      ∀ r ∈ split keys missing data, r.length = width keys := by
  constructor
  · simp [split, length_takeIndices]
  · intro r hr
    rcases List.mem_map.mp hr with ⟨r0, hr0, rfl⟩
    simp [takeIndices_row_length hr0]

theorem reduceOption_map_some (r : List α) : (r.map some).reduceOption = r := by
  induction r with
  | nil => rfl
  | cons a r ih => simp [List.reduceOption_cons_of_some, ih]

theorem reduceOption_replicate_none (m : ℕ) :
    (List.replicate m (none : Option α)).reduceOption = [] := by
  induction m with
  | zero => rfl
  | succ m ih => simp [List.replicate, List.reduceOption_cons_of_none, ih]

theorem reduceOption_flatten (L : List (List (Option α))) :
    L.flatten.reduceOption = (L.map List.reduceOption).flatten := by
  induction L with
  | nil => rfl
  | cons r L ih => simp [List.reduceOption_append, ih]

/-- The valid entries of the flattened index table, in order, are exactly the
row indices grouped by key. -/
theorem reduceOption_flatTake (keys : List ℕ) :
    (flatTake keys).reduceOption = (groupRows keys).flatten := by
  rw [flatTake, reduceOption_flatten, takeIndices, List.map_map]
  have h : List.map
      (List.reduceOption ∘ fun r =>
        List.map some r ++ List.replicate (width keys - r.length) none)
      (groupRows keys) = List.map id (groupRows keys) :=
    List.map_congr_left (fun r _ => by
      simp [Function.comp, List.reduceOption_append, reduceOption_map_some,
        reduceOption_replicate_none])
  rw [h, List.map_id]

theorem nodup_flatten_groupRows (keys : List ℕ) :
    ((groupRows keys).flatten).Nodup := by
  apply List.nodup_flatten.mpr
  constructor
  · intro l hl
    rcases List.mem_map.mp hl with ⟨k, _, rfl⟩
    exact (List.nodup_range _).filter _
  · rw [groupRows, List.pairwise_map]
    have hnd : (sortedKeyList keys).Nodup := (List.nodup_range _).filter _
    apply List.Pairwise.imp ?_ hnd
    intro k1 k2 hne
    intro i hi1 hi2
    rcases List.mem_filter.mp hi1 with ⟨_, h1⟩
    rcases List.mem_filter.mp hi2 with ⟨_, h2⟩
    simp only [decide_eq_true_eq] at h1 h2
    exact absurd (h1 ▸ h2) hne

theorem flatten_groupRows_perm (keys : List ℕ) :
    ((groupRows keys).flatten).Perm (List.range keys.length) := by
  apply (List.perm_ext_iff_of_nodup (nodup_flatten_groupRows keys)
    (List.nodup_range _)).mpr
  intro a
  constructor
  · intro ha
    rcases List.mem_flatten.mp ha with ⟨r, hr, har⟩
    rcases List.mem_map.mp hr with ⟨k, _, rfl⟩
    exact List.mem_range.mpr (List.mem_range.mp (List.mem_filter.mp har).1)
  · intro ha
    exact mem_flatten_groupRows (List.mem_range.mp ha)

end ParallelGroupBy

/-! ## Claim theorems -/

open ParallelGroupBy in
/-- C2: for every key vector of non-negative integers (torch requires a
non-empty one: the constructor evaluates `keys.min()`) and every flat data
tensor of a supported dtype with the same length, modelled as any element
type with a missing marker, `revert(split(data))` equals `data` exactly. -/
theorem claim_C2_groupby_roundtrip {α : Type} [Inhabited α] (keys : List ℕ)
    (missing : α) (data : List α) (_hne : 0 < keys.length)
    (hlen : data.length = keys.length) :
    revert keys (split keys missing data) = some data := by
  rw [revert, if_pos (split_shape keys missing data)]
  congr 1
  rw [inverseIndices, List.map_map]
  apply List.ext_getElem (by simp [hlen])
  intro i h1 h2
  have hi : i < keys.length := by omega
  simp only [List.getElem_map, List.getElem_range, Function.comp]
  have hmem : some i ∈ flatTake keys := mem_flatTake hi
  have hidx : @List.indexOf (Option ℕ) instBEqOfDecidableEq (some i) (flatTake keys) <
      (flatTake keys).length :=
    List.indexOf_lt_length.mpr hmem
  rw [flatten_split]
  rw [List.getD_eq_getElem _ _ (by simpa using hidx)]
  simp only [List.getElem_map]
  rw [List.getElem_indexOf hidx]
  simp [gatherElem, List.getElem?_eq_getElem h2]

/-- Witness for C2 at the key vector [2,0,2,5] and a float data vector. -/
theorem claim_C2_groupby_roundtrip_witness :
    0 < ([2, 0, 2, 5] : List ℕ).length ∧
      ([some 10, some 20, some 30, some 40] : List FP).length =
        ([2, 0, 2, 5] : List ℕ).length ∧
      ParallelGroupBy.revert [2, 0, 2, 5]
          (ParallelGroupBy.split [2, 0, 2, 5] (none : FP)
            [some 10, some 20, some 30, some 40]) =
        some [some 10, some 20, some 30, some 40] :=
  ⟨by decide, by decide,
    claim_C2_groupby_roundtrip [2, 0, 2, 5] none
      [some 10, some 20, some 30, some 40] (by decide) (by decide)⟩

open ParallelGroupBy in
/-- C6: after `split`, every padded (invalid) slot of the result reads as the
missing marker, and the valid slots hold every original row index exactly
once (their multiset is a permutation of `0, …, n-1`). -/
theorem claim_C6_split_padding {α : Type} (keys : List ℕ) (missing : α)
    (data : List α) (g j : ℕ) (hg : g < groups keys) (hj : j < width keys)
    (hpad : ((takeIndices keys).getD g []).getD j none = none) :
    ((split keys missing data).getD g []).getD j missing = missing ∧
      ((flatTake keys).reduceOption).Perm (List.range keys.length) := by
  constructor
  · have hg' : g < (takeIndices keys).length := by rw [length_takeIndices]; exact hg
    have hrow : (takeIndices keys)[g] ∈ takeIndices keys := List.getElem_mem hg'
    have hlenr : ((takeIndices keys)[g]).length = width keys := takeIndices_row_length hrow
    have hj' : j < ((takeIndices keys)[g]).length := by omega
    have hsl : g < (split keys missing data).length := by
      simpa [split] using hg'
    rw [List.getD_eq_getElem _ _ hsl]
    rw [List.getD_eq_getElem _ _ hg'] at hpad
    rw [List.getD_eq_getElem _ _ hj'] at hpad
    simp only [split, List.getElem_map]
    rw [List.getD_eq_getElem _ _ (by simpa using hj')]
    simp only [List.getElem_map]
    rw [hpad]
    rfl
  · rw [reduceOption_flatTake]
    exact flatten_groupRows_perm keys

/-- Witness for C6 at keys [2,0,2,5]: slot (0,1) of the layout is padding. -/
theorem claim_C6_split_padding_witness :
    (0 < ParallelGroupBy.groups [2, 0, 2, 5] ∧
      1 < ParallelGroupBy.width [2, 0, 2, 5] ∧
      ((ParallelGroupBy.takeIndices [2, 0, 2, 5]).getD 0 []).getD 1 none = none) ∧
      ((ParallelGroupBy.split [2, 0, 2, 5] (none : FP)
          [some 10, some 20, some 30, some 40]).getD 0 []).getD 1 none = none ∧
        ((ParallelGroupBy.flatTake [2, 0, 2, 5]).reduceOption).Perm (List.range 4) :=
  ⟨⟨by decide, by decide, by decide⟩,
    claim_C6_split_padding [2, 0, 2, 5] none [some 10, some 20, some 30, some 40]
      0 1 (by decide) (by decide) (by decide)⟩

open DummyParallelGroupBy in
/-- C9 counterexample: for the one-group-only layout variant,
`revert(split(x))` does NOT always equal `x` with the same shape:
`squeeze()` removes every axis of size 1, so a (1,)-shaped input comes back
as a scalar (shape ()). -/
theorem claim_C9_counterexample :
    revert (split (⟨[1], [(5 : ℚ)]⟩ : DTensor ℚ)) ≠ ⟨[1], [5]⟩ := by decide

open DummyParallelGroupBy in
/-- C9 amended: `split` only appends a dummy axis of size 1 and never touches
the contents; `revert` removes every axis of size 1, so `revert(split(x))`
always has the data of `x`, and equals `x` (same shape) whenever `x` has no
axis of size 1. -/
theorem claim_C9_dummy_roundtrip {α : Type} (x : DTensor α) :
    (split x).data = x.data ∧ (revert (split x)).data = x.data ∧
      ((1 : ℕ) ∉ x.shape → revert (split x) = x) := by
  refine ⟨rfl, rfl, ?_⟩
  intro h
  cases x with
  | mk shape data =>
    simp only [split, revert]
    congr 1
    rw [List.filter_append]
    have h1 : List.filter (fun s => decide (s ≠ 1)) [1] = [] := rfl
    have h2 : List.filter (fun s => decide (s ≠ 1)) shape = shape :=
      List.filter_eq_self.mpr (fun a ha => by
        simp only [decide_eq_true_eq]
        intro h1a
        exact h (h1a ▸ ha))
    rw [h1, h2, List.append_nil]

/-- Witness for C9 amended at a (2,)-shaped tensor. -/
theorem claim_C9_dummy_roundtrip_witness :
    (1 : ℕ) ∉ (⟨[2], [(7 : ℚ), 8]⟩ : DTensor ℚ).shape ∧
      DummyParallelGroupBy.revert
        (DummyParallelGroupBy.split (⟨[2], [(7 : ℚ), 8]⟩ : DTensor ℚ)) =
        ⟨[2], [7, 8]⟩ :=
  ⟨by decide, (claim_C9_dummy_roundtrip ⟨[2], [7, 8]⟩).2.2 (by decide)⟩

open Rolling in
/-- C3: for every grouped 2D array, window `win ≥ 1`, group `g`, time `t` and
slot `k < win`, the rolling view element `[g, t, k]` equals the grouped
source value at time `t - (win-1) + k` when that time is non-negative and is
the missing marker otherwise; when the source row itself has no missing
values, a slot reads missing exactly when it is one of the `win-1-t` leading
padding slots. -/
theorem claim_C3_rolling_window (x : List (List FP)) (win g t k : ℕ)
    (_hwin : 1 ≤ win) (hg : g < x.length) (ht : t < (x.getD g []).length)
    (hk : k < win) :
    (((unfold x win).getD g []).getD t []).getD k none =
      (if win - 1 ≤ t + k then (x.getD g []).getD (t + k - (win - 1)) none
        else none) ∧
      ((∀ v ∈ x.getD g [], v.isSome = true) →
        ((((unfold x win).getD g []).getD t []).getD k none = none ↔
          t + k < win - 1)) := by
  have hgx : x.getD g [] = x[g] := List.getD_eq_getElem _ _ hg
  have h1 : (unfold x win).getD g [] = unfoldRow (x.getD g []) win := by
    rw [hgx, List.getD_eq_getElem _ _ (by simpa [unfold] using hg)]
    simp [unfold]
  have h2 : (unfoldRow (x.getD g []) win).getD t [] =
      (List.range win).map (fun k2 =>
        (List.replicate (win - 1) none ++ x.getD g []).getD (t + k2) none) := by
    rw [List.getD_eq_getElem _ _ (by simpa [unfoldRow] using ht)]
    simp [unfoldRow]
  have he : (((unfold x win).getD g []).getD t []).getD k none =
      (List.replicate (win - 1) none ++ x.getD g []).getD (t + k) none := by
    rw [h1, h2, List.getD_eq_getElem _ _ (by simpa using hk)]
    simp
  have hfirst : (((unfold x win).getD g []).getD t []).getD k none =
      (if win - 1 ≤ t + k then (x.getD g []).getD (t + k - (win - 1)) none
        else none) := by
    rw [he]
    by_cases hcase : win - 1 ≤ t + k
    · rw [if_pos hcase]
      rw [List.getD_append_right _ _ _ _ (by simpa using hcase)]
      simp
    · rw [if_neg hcase]
      rw [List.getD_append _ _ _ _ (by simp; omega)]
      rw [List.getD_eq_getElem _ _ (by simp; omega)]
      simp
  refine ⟨hfirst, ?_⟩
  intro hall
  by_cases hcase : win - 1 ≤ t + k
  · have hidx : t + k - (win - 1) < (x.getD g []).length := by omega
    have hsome := hall _ (List.getElem_mem hidx)
    rw [hfirst, if_pos hcase, List.getD_eq_getElem _ _ hidx]
    constructor
    · intro hnone
      rw [hnone] at hsome
      cases hsome
    · intro hlt
      omega
  · rw [hfirst, if_neg hcase]
    simp
    omega

/-- Witness for C3 at the series [1,2] with window 3, position (g,t,k) =
(0,1,0): the slot reads the padding marker since t+k < win-1. -/
theorem claim_C3_rolling_window_witness :
    (1 ≤ 3 ∧ 0 < ([[some 1, some 2]] : List (List FP)).length ∧
      1 < (([[some 1, some 2]] : List (List FP)).getD 0 []).length ∧ 0 < 3) ∧
      ((((Rolling.unfold [[some 1, some 2]] 3).getD 0 []).getD 1 []).getD 0 none =
        (if 3 - 1 ≤ 1 + 0 then
          (([[some 1, some 2]] : List (List FP)).getD 0 []).getD (1 + 0 - (3 - 1)) none
          else none) ∧
      ((∀ v ∈ ([[some 1, some 2]] : List (List FP)).getD 0 [], v.isSome = true) →
        ((((Rolling.unfold [[some 1, some 2]] 3).getD 0 []).getD 1 []).getD 0 none = none ↔
          1 + 0 < 3 - 1))) :=
  ⟨⟨by decide, by decide, by decide, by decide⟩,
    claim_C3_rolling_window [[some 1, some 2]] 3 0 1 0
      (by decide) (by decide) (by decide) (by decide)⟩

open Rolling in
/-- C5: for the grouped price series [10,10,10,10] with adjustment multiplier
[1,1,1,2] at window 4, the adjusted window ending at index 3 is
`raw * (adj / adj_last) = [5,5,5,10]` and the rolling mean there is
6.25 = 25/4. -/
theorem claim_C5_adjusted_rolling_mean :
    ((adjustedValues [[some 10, some 10, some 10, some 10]]
        [[some 1, some 1, some 1, some 2]] 4).getD 0 []).getD 3 [] =
      [some 5, some 5, some 5, some 10] ∧
      ((meanAdjusted [[some 10, some 10, some 10, some 10]]
          [[some 1, some 1, some 1, some 2]] 4).getD 0 []).getD 3 none =
        some (25 / 4) := by
  constructor
  · simp [adjustedValues, unfold, unfoldRow, lastNonnan, fdiv, fmul, List.range_succ]
    norm_num
  · simp [meanAdjusted, adjustedValues, unfold, unfoldRow, lastNonnan, fdiv, fmul,
      fpSum, fadd, List.range_succ]
    norm_num

/-- C10: on a row consisting entirely of NaN values, `nansum` returns 0 for
that row (missing entries are zeroed before summation) while `nanmean`
returns NaN (a 0/0 division). -/
theorem claim_C10_nansum_all_nan (d : List (List FP)) (i : ℕ)
    (hi : i < d.length) (hall : ∀ v ∈ d.getD i [], v = none) :
    (nansum d).getD i 0 = 0 ∧ (nanmean d).getD i none = none := by
  have hrow : d.getD i [] = d[i] := List.getD_eq_getElem _ _ hi
  have hsum : nansumRow (d.getD i []) = 0 := by
    rw [nansumRow]
    apply List.sum_eq_zero
    intro q hq
    rcases List.mem_map.mp hq with ⟨v, hv, rfl⟩
    rw [hall v hv]
    rfl
  have hcount : nonNanCount (d.getD i []) = 0 := by
    rw [nonNanCount]
    apply List.countP_eq_zero.mpr
    intro v hv
    rw [hall v hv]
    simp
  have h1 : (nansum d).getD i 0 = nansumRow (d.getD i []) := by
    rw [hrow, List.getD_eq_getElem _ _ (by simpa [nansum] using hi)]
    simp [nansum]
  have h2 : (nanmean d).getD i none = nanmeanRow (d.getD i []) := by
    rw [hrow, List.getD_eq_getElem _ _ (by simpa [nanmean] using hi)]
    simp [nanmean]
  refine ⟨by rw [h1, hsum], ?_⟩
  rw [h2, nanmeanRow, hsum, hcount]
  simp [fdiv]

/-- Witness for C10 at the all-NaN row [[NaN, NaN]]. -/
theorem claim_C10_nansum_all_nan_witness :
    (0 < ([[none, none]] : List (List FP)).length ∧
      ∀ v ∈ ([[none, none]] : List (List FP)).getD 0 [], v = none) ∧
      (nansum [[none, none]]).getD 0 0 = 0 ∧
        (nanmean [[none, none]]).getD 0 none = none :=
  ⟨⟨by decide, by decide⟩,
    claim_C10_nansum_all_nan [[none, none]] 0 (by decide) (by decide)⟩

/-- C4 counterexample: the claimed formula adds `win - 1` on top of the
mask's backward requirement, but `get_total_backwards_` does not: with
`win = 3`, one trivial input, and a mask requiring 5 extra rows, the code
returns `max(5, 0 + 2) = 5` while the claimed formula gives
`max(0, 5) + 2 = 7`. -/
theorem claim_C4_counterexample :
    getTotalBackwards (.node 3 [.node 1 [] none] (some (.node 6 [] none))) ≠
      claimedNodeBackwards 3 [.node 1 [] none] (some (.node 6 [] none)) := by
  decide

theorem gtbMaxInputs_eq_pyMaxList (l : List Factor) :
    gtbMaxInputs l = pyMaxList (l.map getTotalBackwards) := by
  induction l with
  | nil => rfl
  | cons f fs ih =>
    cases fs with
    | nil => rfl
    | cons g gs =>
      simp only [gtbMaxInputs, List.map_cons, pyMaxList] at ih ⊢
      rw [ih]

/-- C4 amended: `get_total_backwards_` equals the maximum over the upstream
input nodes of their own backward requirement (0 with no inputs), plus
`win - 1`, `max`-ed against the mask node's backward requirement — `win - 1`
is NOT added on top of the mask's requirement; for the chain
A(win=3) ← B(win=5) ← C(win=1) it equals 6. -/
theorem claim_C4_total_backwards :
    (∀ (w : ℤ) (ins : List Factor) (m : Factor),
      getTotalBackwards (.node w ins (some m)) =
        max (getTotalBackwards m) (getTotalBackwards (.node w ins none))) ∧
      (∀ (w : ℤ) (ins : List Factor),
        getTotalBackwards (.node w ins none) =
          pyMaxList (ins.map getTotalBackwards) + (w - 1)) ∧
      getTotalBackwards (.node 1 [.node 5 [.node 3 [] none] none] none) = 6 := by
  refine ⟨?_, ?_, by decide⟩
  · intro w ins m
    simp [getTotalBackwards]
  · intro w ins
    simp [getTotalBackwards, gtbMaxInputs_eq_pyMaxList]

/-- C8: constructing a factor whose (nonzero) window is below the
kernel-declared (nonzero) minimum fails at construction with `ValueError`;
in particular `SumFactor` (`_min_win = 2`) rejects every `win < 2` — even
`win = 0`, which Python truthiness replaces by the class default 1. -/
theorem claim_C8_min_win_construction :
    (∀ (c m w : ℤ), w ≠ 0 → m ≠ 0 → w < m →
      customFactorInit c (some m) (some w) =
        .error "factor win must >= [min_win and 1]") ∧
      ∀ w : ℤ, w < 2 →
        sumFactorInit (some w) = .error "factor win must >= [min_win and 1]" := by
  constructor
  · intro c m w hw hm hlt
    simp only [customFactorInit, if_pos hw, if_pos hm]
    rw [if_neg (by omega)]
  · intro w hlt
    rw [sumFactorInit]
    by_cases hw : w = 0
    · subst hw
      rfl
    · simp only [customFactorInit, if_pos hw]
      rw [if_neg (by omega)]

/-- Witness for C8 at `SumFactor(win=1)` and a generic factor with
`win = 1 < 2 = _min_win`. -/
theorem claim_C8_min_win_construction_witness :
    ((1 : ℤ) ≠ 0 ∧ (2 : ℤ) ≠ 0 ∧ (1 : ℤ) < 2 ∧
      customFactorInit 3 (some 2) (some 1) =
        .error "factor win must >= [min_win and 1]") ∧
      (1 : ℤ) < 2 ∧
        sumFactorInit (some 1) = .error "factor win must >= [min_win and 1]" :=
  ⟨⟨by decide, by decide, by decide,
      claim_C8_min_win_construction.1 3 2 1 (by decide) (by decide) (by decide)⟩,
    by decide, claim_C8_min_win_construction.2 1 (by decide)⟩

theorem preComputeN_spec (k : ℕ) (s : NodeState) :
    preComputeN k s = { s with refCount := s.refCount + k } := by
  induction k generalizing s with
  | zero => simp [preComputeN]
  | succ k ih =>
    rw [preComputeN, ih]
    simp only [preCompute]
    congr 1
    push_cast
    ring

theorem computeStep_uncached (v kc : ℕ) (c : ℤ) (hc : 1 ≤ c) :
    computeStep v ⟨c, none, kc⟩ =
      .ok (⟨c - 1, if c - 1 > 0 then some v else none, kc + 1⟩, v) := by
  simp only [computeStep]
  rw [if_neg (by simp; omega)]

theorem computeStep_cached (v kc : ℕ) (c : ℤ) (hc : 1 ≤ c) :
    computeStep v ⟨c, some v, kc⟩ =
      .ok (⟨c - 1, if c - 1 = 0 then none else some v, kc⟩, v) := by
  simp only [computeStep]
  rw [if_neg (by simp; omega)]

/-- Draining a cached node: with the cache holding `v` and `r` consumers
left, all `r` remaining `compute_` calls return `v` without touching the
kernel, and the cache is released exactly when the count reaches zero. -/
theorem computeN_cached (v : ℕ) (r : ℕ) (hr : 0 < r) (kc : ℕ) :
    computeN v r ⟨(r : ℤ), some v, kc⟩ =
      .ok (⟨0, none, kc⟩, List.replicate r v) := by
  induction r with
  | zero => omega
  | succ n ih =>
    rw [computeN]
    rw [computeStep_cached v kc _ (by push_cast; omega)]
    by_cases hn : n = 0
    · subst hn
      simp [computeN]
    · have h1 : ((n + 1 : ℕ) : ℤ) - 1 = ((n : ℕ) : ℤ) := by push_cast; ring
      rw [h1, if_neg (by exact_mod_cast hn)]
      simp only
      rw [ih (by omega)]
      simp [List.replicate_succ]

/-- C1: a node referenced by K ≥ 2 downstream consumers executes its kernel
exactly once per run: after K matched `pre_compute_` calls, the first
`compute_` call invokes the kernel (call count 0 → 1) and caches the result,
and all K `compute_` calls succeed and return the identical cached tensor,
ending with the cache released and the reference count at zero. -/
theorem claim_C1_at_most_once_computation (K v : ℕ) (hK : 2 ≤ K) :
    computeStep v (preComputeN K initState) =
      .ok (⟨(K : ℤ) - 1, some v, 1⟩, v) ∧
      computeN v K (preComputeN K initState) =
        .ok (⟨0, none, 1⟩, List.replicate K v) := by
  have hpre : preComputeN K initState = ⟨(K : ℤ), none, 0⟩ := by
    rw [preComputeN_spec]
    simp [initState]
  have hstep : computeStep v ⟨(K : ℤ), none, 0⟩ =
      .ok (⟨(K : ℤ) - 1, some v, 1⟩, v) := by
    rw [computeStep_uncached v 0 _ (by omega)]
    rw [if_pos (by omega)]
  refine ⟨by rw [hpre, hstep], ?_⟩
  rw [hpre]
  obtain ⟨n, rfl⟩ : ∃ n, K = n + 2 := ⟨K - 2, by omega⟩
  rw [computeN, hstep]
  simp only
  have h1 : ((n + 2 : ℕ) : ℤ) - 1 = ((n + 1 : ℕ) : ℤ) := by push_cast; ring
  rw [h1, computeN_cached v (n + 1) (by omega) 1]
  simp [List.replicate_succ]

/-- Witness for C1 at K = 3 consumers and kernel tensor 7. -/
theorem claim_C1_at_most_once_computation_witness :
    2 ≤ 3 ∧
      computeStep 7 (preComputeN 3 initState) =
        .ok (⟨(3 : ℤ) - 1, some 7, 1⟩, 7) ∧
      computeN 7 3 (preComputeN 3 initState) =
        .ok (⟨0, none, 1⟩, List.replicate 3 7) :=
  ⟨by decide, claim_C1_at_most_once_computation 3 7 (by decide)⟩

/-- Appending compute runs: running `a + b` calls is running `a` calls and
then `b` calls on the resulting state, concatenating the outputs. -/
theorem computeN_add (v a b : ℕ) (s : NodeState) :
    computeN v (a + b) s =
      match computeN v a s with
      | .error e => .error e
      | .ok (s1, vs) =>
        match computeN v b s1 with
        | .error e => .error e
        | .ok (s2, vs2) => .ok (s2, vs ++ vs2) := by
  induction a generalizing s with
  | zero =>
    simp only [Nat.zero_add, computeN]
    cases h : computeN v b s with
    | error e => simp
    | ok p => cases p; simp
  | succ a ih =>
    have hadd : a + 1 + b = (a + b) + 1 := by omega
    rw [hadd, computeN, computeN]
    cases hs : computeStep v s with
    | error e => simp
    | ok p =>
      cases p with
      | mk s1 v1 =>
        simp only
        rw [ih s1]
        cases h1 : computeN v a s1 with
        | error e => simp
        | ok q =>
          cases q with
          | mk s2 vs =>
            simp only
            cases h2 : computeN v b s2 with
            | error e => simp
            | ok r => cases r; simp

/-- After the K matched `pre_compute_` calls of a run, K `compute_` calls
drain the node to refcount 0 with no cache. -/
theorem computeN_drain (v K : ℕ) :
    computeN v K ⟨(K : ℤ), none, 0⟩ =
      .ok (⟨0, none, if K = 0 then 0 else 1⟩, List.replicate K v) := by
  cases K with
  | zero => rfl
  | succ n =>
    rw [computeN]
    rw [computeStep_uncached v 0 _ (by push_cast; omega)]
    simp only
    by_cases hn : n = 0
    · subst hn
      simp [computeN]
    · have h1 : ((n + 1 : ℕ) : ℤ) - 1 = ((n : ℕ) : ℤ) := by push_cast; ring
      rw [h1, if_pos (by exact_mod_cast Nat.pos_of_ne_zero hn)]
      rw [computeN_cached v n (Nat.pos_of_ne_zero hn) 1]
      simp [List.replicate_succ, hn]

/-- C7: `compute_` decrements the reference count and raises `ValueError`
whenever the count would go negative — i.e. whenever `compute_` is called
more times in a run than `pre_compute_` raised the count — returning no
result in that case. -/
theorem claim_C7_refcount_error :
    (∀ (s : NodeState) (v : ℕ), s.refCount ≤ 0 →
      computeStep v s = .error "Reference count error") ∧
      ∀ (K v : ℕ), computeN v (K + 1) (preComputeN K initState) =
        .error "Reference count error" := by
  constructor
  · intro s v hs
    simp only [computeStep]
    rw [if_pos (by omega)]
  · intro K v
    have hpre : preComputeN K initState = ⟨(K : ℤ), none, 0⟩ := by
      rw [preComputeN_spec]
      simp [initState]
    rw [hpre, computeN_add v K 1, computeN_drain]
    simp only
    rw [computeN]
    have hlast : computeStep v ⟨0, none, if K = 0 then 0 else 1⟩ =
        .error "Reference count error" := by
      simp only [computeStep]
      rw [if_pos (by simp)]
    rw [hlast]

/-- Witness for C7: one extra `compute_` call with the count exhausted. -/
theorem claim_C7_refcount_error_witness :
    initState.refCount ≤ 0 ∧
      computeStep 5 initState = .error "Reference count error" :=
  ⟨by decide, claim_C7_refcount_error.1 initState 5 (by decide)⟩

end Spectre
